import Mathlib

/-!
A verification development for the `watch` task-supervision library.

The library exposes a single entry point, `watch`, which takes a non-empty
ordered collection of task factories, spawns one task per factory, and loops
forever: wait for the first task to complete (via the external completion
primitive `select_all`), rebuild the slot-index bookkeeping, re-invoke the
factory that owned the completed slot, and append the replacement task at the
tail.

The embedding below models factories by their original position `0..n-1`; a
task records only the identity of the factory that produced it (task outputs
are discarded by the supervisor, so nothing else is observable).  The std
`HashMap` is modelled as an association list where insertion conses at the
front and lookup takes the first match, so later insertions shadow earlier
ones, and collecting from an iterator of pairs folds insertions left to right.
The external completion primitive is modelled by its required contract: it
reports the completed task's value and position and returns the survivors in
their original relative order, with the scheduler's choice of which task
completes supplied as an oracle argument.  Failures (panics and factory
failures) are modelled with `Except`.
-/

namespace Watch

/-- A task, modelled by the identity of the factory that produced it. -/
structure Task where
  factoryId : Nat
deriving DecidableEq, Repr

/-- The `Indexed` wrapper from the source: a task tagged with a carried slot
index. -/
structure Indexed where
  index : Nat
  inner : Task
deriving DecidableEq, Repr

/-- The supervisor loop's state: the indexed task vector and the
slot-to-factory map (factories represented by their ids). -/
structure WatchState where
  indexed_tasks : List Indexed
  factory_index : List (Nat × Nat)
deriving DecidableEq, Repr

/-- Collecting an iterator of key-value pairs into a HashMap, modelled on
association lists: fold insertions left to right, each insertion consing at
the front (so with first-match lookup, later pairs win, as in HashMap). -/
def hashMapOfPairs (l : List (Nat × Nat)) : List (Nat × Nat) :=
  l.foldl (fun m kv => kv :: m) []

/-- Model of the external completion-wait primitive (futures' select_all) per
its required contract: given the active tasks and the position `s` that the
scheduler completes first, return that task's value, its position, and the
remaining tasks in their original relative order.  Waiting on an empty
collection is a panic; an out-of-range choice (which a real scheduler never
makes) is also modelled as an error. -/
def select_all (tasks : List Indexed) (s : Nat) :
    Except String (Task × Nat × List Indexed) :=
  if tasks.isEmpty then
    Except.error "select_all called with an empty collection"
  else if h : s < tasks.length then
    Except.ok ((tasks.get ⟨s, h⟩).inner, s, tasks.eraseIdx s)
  else
    Except.error "select_all: invalid scheduler choice"

/-- The remapping table built each iteration (source: `from_to`): the
surviving tasks' carried indices are enumerated into compacted positions and
collected into a map, then the stopped index is bound to the tail position. -/
def from_to (other_tasks : List Indexed) (stopped_index : Nat) :
    List (Nat × Nat) :=
  (stopped_index, other_tasks.length) ::
    hashMapOfPairs
      ((other_tasks.map (fun it => it.index)).enum.map (fun p => (p.2, p.1)))

/-- The rebuild of `factory_index`: every binding's key is translated through
the `from_to` table; a missing entry is the fatal expect("invalid index
state"). -/
def remapEntries (ft : List (Nat × Nat)) :
    List (Nat × Nat) → Except String (List (Nat × Nat))
  | [] => Except.ok []
  | kv :: rest =>
    match List.lookup kv.1 ft with
    | none => Except.error "invalid index state"
    | some t =>
      match remapEntries ft rest with
      | Except.error e => Except.error e
      | Except.ok rs => Except.ok ((t, kv.2) :: rs)

/-- One iteration of the supervisor loop body.  `call` models invoking the
factory with a given id (the standard instantiation is `stdCall`; it may fail
to model a panicking factory).  On success it returns the new state, the
completed task's value, and the id of the factory invoked for the respawn. -/
def watchStep (call : Nat → Except String Task) (st : WatchState) (s : Nat) :
    Except String (WatchState × Task × Nat) :=
  match select_all st.indexed_tasks s with
  | Except.error e => Except.error e
  | Except.ok (stopped, stopped_index, other_tasks) =>
    let ft := from_to other_tasks stopped_index
    let tasks : List Task := other_tasks.map (fun it => it.inner)
    match List.lookup stopped_index st.factory_index with
    | none => Except.error "invalid index state"
    | some fid =>
      match call fid with
      | Except.error e => Except.error e
      | Except.ok respawned_task =>
        match remapEntries ft st.factory_index with
        | Except.error e => Except.error e
        | Except.ok remapped =>
          Except.ok
            ( { indexed_tasks := (tasks ++ [respawned_task]).enum.map
                  (fun p => Indexed.mk p.1 p.2)
              , factory_index := hashMapOfPairs remapped }
            , stopped, fid )

/-- The standard factory behaviour: invoking factory `fid` produces a fresh
task recording `fid` as its producer, and never fails. -/
def stdCall (fid : Nat) : Except String Task :=
  Except.ok (Task.mk fid)

/-- Initialization of `watch` for `n` factories: each factory is invoked once,
the resulting tasks are tagged with their positions, and `factory_index` is
collected from the enumerated factory collection. -/
def watchInit (n : Nat) : WatchState :=
  { indexed_tasks :=
      ((List.range n).map (fun i => Task.mk i)).enum.map
        (fun p => Indexed.mk p.1 p.2)
  , factory_index := hashMapOfPairs ((List.range n).enum) }

/-- Outcome of running the loop for finitely many iterations: still running
(with the log of (completed task, invoked factory id) observations), stopped
by a propagated failure, or returned normally — an outcome the loop body
never produces. -/
inductive LoopOutcome where
  | running : WatchState → List (Task × Nat) → LoopOutcome
  | failed : String → LoopOutcome
  | returned : LoopOutcome
deriving DecidableEq, Repr

/-- Run the supervisor loop once per scheduler choice in `sched`. -/
def watchLoop (call : Nat → Except String Task) (st : WatchState) :
    List Nat → LoopOutcome
  | [] => LoopOutcome.running st []
  | s :: rest =>
    match watchStep call st s with
    | Except.error e => LoopOutcome.failed e
    | Except.ok (st', out, fid) =>
      match watchLoop call st' rest with
      | LoopOutcome.running stf log => LoopOutcome.running stf ((out, fid) :: log)
      | r => r

/-- The keys of an association list. -/
def keys (m : List (Nat × Nat)) : List Nat := m.map Prod.fst

/-- Canonical indexed task list for a slot-to-factory assignment `perm`: slot
`i` holds the task produced by factory `perm[i]`, tagged with `i`. -/
def canonical (perm : List Nat) : List Indexed :=
  perm.enum.map (fun p => Indexed.mk p.1 (Task.mk p.2))

/-- The loop invariant: for some assignment `perm` of factories to slots (a
permutation of `0..n-1`), the task vector is canonical for `perm` and
`factory_index` holds exactly the bindings (slot `i`, factory `perm[i]`),
with no duplicate keys. -/
def Inv (n : Nat) (st : WatchState) : Prop :=
  ∃ perm : List Nat, perm.Perm (List.range n) ∧
    st.indexed_tasks = canonical perm ∧
    (keys st.factory_index).Nodup ∧
    ∀ p : Nat × Nat, p ∈ st.factory_index ↔ p ∈ perm.enum

/-- The index translation the remapping realizes: the stopped slot `s` moves
to the tail `n-1`, slots below `s` stay put, slots above shift down by one. -/
def remapFun (n s j : Nat) : Nat :=
  if j = s then n - 1 else if j < s then j else j - 1

theorem foldl_cons_eq_reverse_append (l acc : List (Nat × Nat)) :
    l.foldl (fun m kv => kv :: m) acc = l.reverse ++ acc := by
  induction l generalizing acc with
  | nil => simp
  | cons kv l ih => simp [List.foldl_cons, ih]

theorem hashMapOfPairs_eq_reverse (l : List (Nat × Nat)) :
    hashMapOfPairs l = l.reverse := by
  rw [hashMapOfPairs, foldl_cons_eq_reverse_append, List.append_nil]

theorem lookup_eq_some_of_mem_nodup {m : List (Nat × Nat)} {k v : Nat}
    (hk : (keys m).Nodup) (hm : (k, v) ∈ m) : List.lookup k m = some v := by
  induction m with
  | nil => simp at hm
  | cons kv m ih =>
    obtain ⟨a, b⟩ := kv
    rw [keys, List.map_cons, List.nodup_cons] at hk
    rcases List.mem_cons.mp hm with h | h
    · cases h
      simp [List.lookup_cons]
    · have hka : (k == a) = false := by
        simp only [beq_eq_false_iff_ne, ne_eq]
        intro he
        exact hk.1 (he ▸ List.mem_map.mpr ⟨(k, v), h, rfl⟩)
      simp only [List.lookup_cons, hka]
      exact ih hk.2 h

theorem mem_of_lookup_eq_some {m : List (Nat × Nat)} {k v : Nat}
    (h : List.lookup k m = some v) : (k, v) ∈ m := by
  induction m with
  | nil => simp at h
  | cons kv m ih =>
    obtain ⟨a, b⟩ := kv
    rw [List.lookup_cons] at h
    cases hke : (k == a) with
    | true =>
      rw [hke] at h
      have hkv : k = a := by simpa using hke
      have hbv : b = v := by simpa using h
      exact hkv ▸ hbv ▸ List.mem_cons_self _ _
    | false =>
      rw [hke] at h
      exact List.mem_cons_of_mem _ (ih h)

theorem map_eraseIdx {α β : Type} (f : α → β) :
    ∀ (l : List α) (i : Nat), (l.eraseIdx i).map f = (l.map f).eraseIdx i
  | [], _ => by simp
  | _ :: _, 0 => by simp
  | a :: l, i + 1 => by simp [map_eraseIdx f l i]

theorem canonical_length (perm : List Nat) :
    (canonical perm).length = perm.length := by
  simp [canonical]

theorem canonical_map_index (perm : List Nat) :
    (canonical perm).map (fun it => it.index) = List.range perm.length := by
  rw [canonical, List.map_map]
  rw [show ((fun it : Indexed => it.index) ∘
        fun p : Nat × Nat => Indexed.mk p.1 (Task.mk p.2)) = Prod.fst from rfl]
  exact List.enum_map_fst perm

theorem canonical_map_inner (perm : List Nat) :
    (canonical perm).map (fun it => it.inner) = perm.map (fun f => Task.mk f) := by
  rw [canonical, List.map_map]
  rw [show ((fun it : Indexed => it.inner) ∘
        fun p : Nat × Nat => Indexed.mk p.1 (Task.mk p.2)) =
      ((fun f => Task.mk f) ∘ Prod.snd) from rfl]
  rw [← List.map_map, List.enum_map_snd]

theorem canonical_getElem? (perm : List Nat) (i : Nat) :
    (canonical perm)[i]? = perm[i]?.map (fun f => Indexed.mk i (Task.mk f)) := by
  simp [canonical, Option.map_map]
  cases perm[i]? <;> rfl

theorem canonical_eq_enum_map (l : List Nat) :
    ((l.map (fun f => Task.mk f)).enum).map (fun p => Indexed.mk p.1 p.2) =
      canonical l := by
  rw [List.enum_map, List.map_map, canonical]
  rfl

theorem remapFun_self (n s : Nat) : remapFun n s s = n - 1 := by
  simp [remapFun]

theorem remapFun_lt_of_ne {n s j : Nat} (hj : j < n) (hs : s < n) (hjs : j ≠ s) :
    remapFun n s j < n - 1 := by
  simp only [remapFun]
  split_ifs <;> omega

theorem remapFun_mono {n s a b : Nat} (hab : a < b) (ha : a ≠ s) (hb : b ≠ s)
    (hs : s < n) (hbn : b < n) : remapFun n s a < remapFun n s b := by
  simp only [remapFun]
  split_ifs <;> omega

theorem remapFun_inj {n s i j : Nat} (hi : i < n) (hj : j < n) (hs : s < n)
    (h : remapFun n s i = remapFun n s j) : i = j := by
  simp only [remapFun] at h
  split_ifs at h <;> omega

theorem remapFun_of_lt {n s j : Nat} (h : j < s) : remapFun n s j = j := by
  simp only [remapFun]
  split_ifs <;> omega

theorem remapFun_of_gt {n s j : Nat} (h : s < j) : remapFun n s j = j - 1 := by
  simp only [remapFun]
  split_ifs <;> omega

theorem tags_of_canonical_eraseIdx (perm : List Nat) (s : Nat) :
    ((canonical perm).eraseIdx s).map (fun it => it.index) =
      (List.range perm.length).eraseIdx s := by
  rw [map_eraseIdx, canonical_map_index]

theorem length_canonical_eraseIdx (perm : List Nat) (s : Nat)
    (hs : s < perm.length) :
    ((canonical perm).eraseIdx s).length = perm.length - 1 := by
  rw [List.length_eraseIdx_of_lt (by rw [canonical_length]; exact hs),
    canonical_length]

theorem from_to_lookup (perm : List Nat) (s j : Nat)
    (hs : s < perm.length) (hj : j < perm.length) :
    List.lookup j (from_to ((canonical perm).eraseIdx s) s) =
      some (remapFun perm.length s j) := by
  rw [from_to, List.lookup_cons]
  by_cases hjs : j = s
  · subst hjs
    simp only [beq_self_eq_true]
    rw [length_canonical_eraseIdx perm j hs, remapFun_self]
  · have hne : (j == s) = false := by
      simp only [beq_eq_false_iff_ne, ne_eq]
      exact hjs
    simp only [hne]
    rw [hashMapOfPairs_eq_reverse, tags_of_canonical_eraseIdx]
    apply lookup_eq_some_of_mem_nodup
    · rw [keys, List.map_reverse, List.map_map]
      rw [show (Prod.fst ∘ fun p : Nat × Nat => (p.2, p.1)) = Prod.snd from rfl]
      rw [List.enum_map_snd, List.nodup_reverse]
      exact (List.eraseIdx_sublist _ s).nodup (List.nodup_range _)
    · rw [List.mem_reverse, List.mem_map]
      refine ⟨(remapFun perm.length s j, j), ?_, rfl⟩
      rw [List.mk_mem_enum_iff_getElem?]
      by_cases hlt : j < s
      · rw [remapFun_of_lt hlt, List.getElem?_eraseIdx_of_lt _ _ _ hlt,
          List.getElem?_range hj]
      · have hgt : s < j := by omega
        rw [remapFun_of_gt hgt, List.getElem?_eraseIdx_of_ge _ _ _ (by omega)]
        rw [show j - 1 + 1 = j from by omega, List.getElem?_range hj]

theorem remapEntries_eq_map (ft : List (Nat × Nat)) (g : Nat → Nat) :
    ∀ m : List (Nat × Nat),
      (∀ kv ∈ m, List.lookup kv.1 ft = some (g kv.1)) →
      remapEntries ft m = Except.ok (m.map (fun kv => (g kv.1, kv.2)))
  | [], _ => rfl
  | kv :: rest, h => by
    simp only [remapEntries, h kv (List.mem_cons_self _ _),
      remapEntries_eq_map ft g rest (fun p hp => h p (List.mem_cons_of_mem _ hp)),
      List.map_cons]

theorem newPerm_length (perm : List Nat) (s fid : Nat) (hs : s < perm.length) :
    (perm.eraseIdx s ++ [fid]).length = perm.length := by
  rw [List.length_append, List.length_eraseIdx_of_lt hs, List.length_singleton]
  omega

theorem newPerm_mem_iff (perm : List Nat) (s fid : Nat)
    (hfid : perm[s]? = some fid) (j f : Nat) :
    (j, f) ∈ (perm.eraseIdx s ++ [fid]).enum ↔
      ∃ i, (i, f) ∈ perm.enum ∧ remapFun perm.length s i = j := by
  obtain ⟨hs, hval⟩ := List.getElem?_eq_some_iff.mp hfid
  rw [List.mk_mem_enum_iff_getElem?]
  have hlen : (perm.eraseIdx s).length = perm.length - 1 :=
    List.length_eraseIdx_of_lt hs
  constructor
  · intro h
    have hjn : j < perm.length := by
      obtain ⟨hj, _⟩ := List.getElem?_eq_some_iff.mp h
      rw [List.length_append, hlen, List.length_singleton] at hj
      omega
    by_cases hj1 : j = perm.length - 1
    · subst hj1
      refine ⟨s, ?_, remapFun_self _ _⟩
      rw [List.mk_mem_enum_iff_getElem?]
      rw [List.getElem?_append_right (by omega), hlen, Nat.sub_self,
        List.getElem?_cons_zero] at h
      rw [hfid]
      exact h
    · have hjlt : j < perm.length - 1 := by omega
      rw [List.getElem?_append_left (by omega), List.getElem?_eraseIdx] at h
      by_cases hjs : j < s
      · refine ⟨j, ?_, remapFun_of_lt hjs⟩
        rw [List.mk_mem_enum_iff_getElem?]
        rw [if_pos hjs] at h
        exact h
      · refine ⟨j + 1, ?_, by rw [remapFun_of_gt (by omega)]; omega⟩
        rw [List.mk_mem_enum_iff_getElem?]
        rw [if_neg hjs] at h
        exact h
  · rintro ⟨i, hi, hri⟩
    rw [List.mk_mem_enum_iff_getElem?] at hi
    obtain ⟨hin, hival⟩ := List.getElem?_eq_some_iff.mp hi
    by_cases his : i = s
    · subst his
      rw [remapFun_self] at hri
      subst hri
      rw [List.getElem?_append_right (by omega), hlen, Nat.sub_self,
        List.getElem?_cons_zero]
      rw [hfid] at hi
      exact hi
    · have hlt : remapFun perm.length s i < perm.length - 1 :=
        remapFun_lt_of_ne hin hs his
      subst hri
      rw [List.getElem?_append_left (by omega), List.getElem?_eraseIdx]
      by_cases his2 : i < s
      · rw [remapFun_of_lt his2, if_pos his2]
        exact hi
      · have hgt : s < i := by omega
        rw [remapFun_of_gt hgt, if_neg (by omega),
          show i - 1 + 1 = i from by omega]
        exact hi

theorem perm_length_eq {n : Nat} {perm : List Nat}
    (h : perm.Perm (List.range n)) : perm.length = n := by
  rw [h.length_eq, List.length_range]

theorem inv_init (n : Nat) : Inv n (watchInit n) := by
  refine ⟨List.range n, List.Perm.refl _, ?_, ?_, ?_⟩
  · simp only [watchInit]
    exact canonical_eq_enum_map (List.range n)
  · simp only [watchInit, hashMapOfPairs_eq_reverse, keys, List.map_reverse,
      List.enum_map_fst, List.nodup_reverse, List.length_range]
    exact List.nodup_range n
  · intro p
    simp only [watchInit, hashMapOfPairs_eq_reverse, List.mem_reverse]

theorem canonical_getElem {perm : List Nat} {s fid : Nat}
    (hfid : perm[s]? = some fid) (h : s < (canonical perm).length) :
    (canonical perm).get ⟨s, h⟩ = Indexed.mk s (Task.mk fid) := by
  have h2 : (canonical perm)[s]? = some (Indexed.mk s (Task.mk fid)) := by
    rw [canonical_getElem?, hfid]
    rfl
  rw [List.get_eq_getElem]
  exact (List.getElem?_eq_some_iff.mp h2).2

theorem select_all_canonical {perm : List Nat} {s fid : Nat}
    (hfid : perm[s]? = some fid) :
    select_all (canonical perm) s =
      Except.ok (Task.mk fid, s, (canonical perm).eraseIdx s) := by
  obtain ⟨hs, hval⟩ := List.getElem?_eq_some_iff.mp hfid
  have hlt : s < (canonical perm).length := by
    rw [canonical_length]
    exact hs
  have hne : (canonical perm).isEmpty = false := by
    rw [List.isEmpty_eq_false]
    intro h
    rw [h] at hlt
    simp at hlt
  rw [select_all, hne]
  simp only [Bool.false_eq_true, if_false]
  rw [dif_pos hlt, canonical_getElem hfid hlt]

theorem watchStep_eq (n : Nat) (st : WatchState) (s : Nat) (perm : List Nat)
    (fid : Nat)
    (hperm : perm.Perm (List.range n))
    (htasks : st.indexed_tasks = canonical perm)
    (hkeys : (keys st.factory_index).Nodup)
    (hmem : ∀ p : Nat × Nat, p ∈ st.factory_index ↔ p ∈ perm.enum)
    (hfid : perm[s]? = some fid) :
    watchStep stdCall st s = Except.ok
      ( { indexed_tasks := canonical (perm.eraseIdx s ++ [fid])
        , factory_index := hashMapOfPairs
            (st.factory_index.map (fun kv => (remapFun n s kv.1, kv.2))) }
      , Task.mk fid, fid ) := by
  obtain ⟨hsn, hval⟩ := List.getElem?_eq_some_iff.mp hfid
  have hlenp : perm.length = n := perm_length_eq hperm
  have hlk : List.lookup s st.factory_index = some fid :=
    lookup_eq_some_of_mem_nodup hkeys
      ((hmem (s, fid)).mpr (List.mk_mem_enum_iff_getElem?.mpr hfid))
  have hremap :
      remapEntries (from_to ((canonical perm).eraseIdx s) s) st.factory_index =
        Except.ok (st.factory_index.map (fun kv => (remapFun n s kv.1, kv.2))) := by
    apply remapEntries_eq_map
    intro kv hkv
    have hk : kv.1 < perm.length :=
      List.fst_lt_of_mem_enum ((hmem kv).mp hkv)
    rw [from_to_lookup perm s kv.1 hsn hk, hlenp]
  have htasks2 :
      ((canonical perm).eraseIdx s).map (fun it => it.inner) ++ [Task.mk fid] =
        (perm.eraseIdx s ++ [fid]).map (fun f => Task.mk f) := by
    rw [map_eraseIdx, canonical_map_inner, List.map_append, ← map_eraseIdx]
    rfl
  rw [watchStep, htasks, select_all_canonical hfid]
  simp only [hlk, stdCall, hremap]
  rw [htasks2, canonical_eq_enum_map]

theorem inv_step (n : Nat) (st : WatchState) (s : Nat) (perm : List Nat)
    (fid : Nat)
    (hperm : perm.Perm (List.range n))
    (hkeys : (keys st.factory_index).Nodup)
    (hmem : ∀ p : Nat × Nat, p ∈ st.factory_index ↔ p ∈ perm.enum)
    (hfid : perm[s]? = some fid) :
    Inv n ⟨canonical (perm.eraseIdx s ++ [fid]),
      hashMapOfPairs
        (st.factory_index.map (fun kv => (remapFun n s kv.1, kv.2)))⟩ := by
  obtain ⟨hsn, hval⟩ := List.getElem?_eq_some_iff.mp hfid
  have hlenp : perm.length = n := perm_length_eq hperm
  have hkeylt : ∀ x ∈ keys st.factory_index, x < n := by
    intro x hx
    rw [keys, List.mem_map] at hx
    obtain ⟨kv, hkv, hke⟩ := hx
    have := List.fst_lt_of_mem_enum ((hmem kv).mp hkv)
    rw [hlenp] at this
    rw [← hke]
    exact this
  refine ⟨perm.eraseIdx s ++ [fid], ?_, rfl, ?_, ?_⟩
  · have h1 : (perm.eraseIdx s ++ [fid]).Perm (fid :: perm.eraseIdx s) :=
      List.perm_append_singleton _ _
    have h2 : (fid :: perm.eraseIdx s).Perm perm := by
      rw [List.eraseIdx_eq_take_drop_succ, ← hval]
      have h3 : perm.take s ++ perm[s] :: perm.drop (s + 1) = perm := by
        rw [List.getElem_cons_drop perm s hsn, List.take_append_drop]
      conv_rhs => rw [← h3]
      exact List.perm_middle.symm
    exact (h1.trans h2).trans hperm
  · rw [hashMapOfPairs_eq_reverse, keys, List.map_reverse, List.nodup_reverse,
      List.map_map]
    rw [show (Prod.fst ∘ fun kv : Nat × Nat => (remapFun n s kv.1, kv.2)) =
        (remapFun n s ∘ Prod.fst) from rfl]
    rw [← List.map_map]
    refine List.Nodup.map_on ?_ hkeys
    intro x hx y hy hxy
    exact remapFun_inj (hkeylt x hx) (hkeylt y hy) (hlenp ▸ hsn) hxy
  · intro p
    obtain ⟨j, f⟩ := p
    rw [hashMapOfPairs_eq_reverse, List.mem_reverse, List.mem_map,
      newPerm_mem_iff perm s fid hfid j f]
    constructor
    · rintro ⟨⟨k, v⟩, hkv, heq⟩
      obtain ⟨hkj, hvf⟩ := Prod.mk.injEq _ _ _ _ ▸ heq
      refine ⟨k, ?_, ?_⟩
      · exact hvf ▸ (hmem (k, v)).mp hkv
      · rw [hlenp]
        exact hkj
    · rintro ⟨i, hi, hri⟩
      refine ⟨(i, f), (hmem (i, f)).mpr hi, ?_⟩
      rw [hlenp] at hri
      rw [hri]

theorem watchStep_stdCall_inv {n : Nat} {st st' : WatchState} {s : Nat}
    {out : Task} {fid : Nat} (hInv : Inv n st)
    (hstep : watchStep stdCall st s = Except.ok (st', out, fid)) :
    Inv n st' ∧ out = Task.mk fid ∧ s < n ∧
      List.lookup s st.factory_index = some fid := by
  obtain ⟨perm, hperm, htasks, hkeys, hmem⟩ := hInv
  have hlenp : perm.length = n := perm_length_eq hperm
  by_cases hs : s < n
  · have hsp : s < perm.length := by omega
    obtain ⟨fid0, hfid⟩ : ∃ f, perm[s]? = some f :=
      ⟨_, List.getElem?_eq_getElem hsp⟩
    have heq := watchStep_eq n st s perm fid0 hperm htasks hkeys hmem hfid
    rw [heq] at hstep
    have h3 := Except.ok.inj hstep
    have hst : st' =
        ⟨canonical (perm.eraseIdx s ++ [fid0]),
          hashMapOfPairs
            (st.factory_index.map (fun kv => (remapFun n s kv.1, kv.2)))⟩ :=
      (congrArg Prod.fst h3).symm
    have hout : out = Task.mk fid0 := (congrArg (fun t => t.2.1) h3).symm
    have hfe : fid = fid0 := (congrArg (fun t => t.2.2) h3).symm
    refine ⟨?_, ?_, hs, ?_⟩
    · rw [hst]
      exact inv_step n st s perm fid0 hperm hkeys hmem hfid
    · rw [hout, hfe]
    · rw [hfe]
      exact lookup_eq_some_of_mem_nodup hkeys
        ((hmem (s, fid0)).mpr (List.mk_mem_enum_iff_getElem?.mpr hfid))
  · exfalso
    have hlen : st.indexed_tasks.length = n := by
      rw [htasks, canonical_length, hlenp]
    obtain ⟨e, he⟩ : ∃ e, select_all st.indexed_tasks s = Except.error e := by
      rw [select_all]
      by_cases hemp : st.indexed_tasks.isEmpty
      · rw [if_pos hemp]
        exact ⟨_, rfl⟩
      · rw [if_neg hemp, dif_neg (by rw [hlen]; omega)]
        exact ⟨_, rfl⟩
    rw [watchStep, he] at hstep
    simp at hstep

theorem watchLoop_running_spec {n : Nat} (sched : List Nat) :
    ∀ (st stf : WatchState) (log : List (Task × Nat)), Inv n st →
      watchLoop stdCall st sched = LoopOutcome.running stf log →
      Inv n stf ∧ log.length = sched.length ∧
        ∀ e ∈ log, e.2 = e.1.factoryId := by
  induction sched with
  | nil =>
    intro st stf log hInv h
    rw [watchLoop] at h
    obtain ⟨h1, h2⟩ := LoopOutcome.running.inj h
    subst h1
    subst h2
    exact ⟨hInv, rfl, by simp⟩
  | cons s rest ih =>
    intro st stf log hInv h
    rw [watchLoop] at h
    cases hstep : watchStep stdCall st s with
    | error e =>
      simp only [hstep] at h
      exact LoopOutcome.noConfusion h
    | ok r =>
      obtain ⟨st1, out, fid⟩ := r
      simp only [hstep] at h
      obtain ⟨hInv1, hout, hs, hlk⟩ := watchStep_stdCall_inv hInv hstep
      cases hrec : watchLoop stdCall st1 rest with
      | running st2 log2 =>
        simp only [hrec] at h
        obtain ⟨h1, h2⟩ := LoopOutcome.running.inj h
        subst h1
        subst h2
        obtain ⟨hI, hlen, hlog⟩ := ih st1 st2 log2 hInv1 hrec
        refine ⟨hI, by simp [hlen], ?_⟩
        intro e he
        rcases List.mem_cons.mp he with he | he
        · subst he
          rw [hout]
        · exact hlog e he
      | failed e =>
        simp only [hrec] at h
        exact LoopOutcome.noConfusion h
      | returned =>
        simp only [hrec] at h
        exact LoopOutcome.noConfusion h

theorem inv_length {n : Nat} {st : WatchState} (h : Inv n st) :
    st.indexed_tasks.length = n := by
  obtain ⟨perm, hperm, htasks, _, _⟩ := h
  rw [htasks, canonical_length, perm_length_eq hperm]

theorem inv_tags {n : Nat} {st : WatchState} (h : Inv n st) :
    st.indexed_tasks.map (fun it => it.index) = List.range n := by
  obtain ⟨perm, hperm, htasks, _, _⟩ := h
  rw [htasks, canonical_map_index, perm_length_eq hperm]

theorem canonical_map_factoryId (perm : List Nat) :
    (canonical perm).map (fun it => it.inner.factoryId) = perm := by
  rw [canonical, List.map_map]
  rw [show ((fun it : Indexed => it.inner.factoryId) ∘
      fun p : Nat × Nat => Indexed.mk p.1 (Task.mk p.2)) = Prod.snd from rfl]
  exact List.enum_map_snd perm

theorem canonical_inj {l l2 : List Nat} (h : canonical l = canonical l2) :
    l = l2 := by
  have := congrArg (List.map (fun it => it.inner.factoryId)) h
  rwa [canonical_map_factoryId, canonical_map_factoryId] at this

theorem inv_factoryIds {n : Nat} {st : WatchState} (h : Inv n st) :
    ∃ perm : List Nat, perm.Perm (List.range n) ∧
      st.indexed_tasks.map (fun it => it.inner.factoryId) = perm := by
  obtain ⟨perm, hperm, htasks, _, _⟩ := h
  refine ⟨perm, hperm, ?_⟩
  rw [htasks, canonical_map_factoryId]

theorem getElem_not_mem_eraseIdx_of_nodup {l : List Nat} {i : Nat}
    (hN : l.Nodup) (hi : i < l.length) : l[i] ∉ l.eraseIdx i := by
  intro hmem
  rw [List.eraseIdx_eq_take_drop_succ] at hmem
  have hdecomp : l = l.take i ++ l[i] :: l.drop (i + 1) := by
    rw [List.getElem_cons_drop l i hi, List.take_append_drop]
  rw [hdecomp, List.nodup_append] at hN
  obtain ⟨h1, h2, hdisj⟩ := hN
  rcases List.mem_append.mp hmem with hmem | hmem
  · exact hdisj hmem (List.mem_cons_self _ _)
  · rw [List.nodup_cons] at h2
    exact h2.1 hmem

theorem inv_keys_perm {n : Nat} {st : WatchState} (h : Inv n st) :
    (keys st.factory_index).Perm (List.range n) := by
  obtain ⟨perm, hperm, htasks, hkeys, hmem⟩ := h
  have hlenp : perm.length = n := perm_length_eq hperm
  rw [List.perm_ext_iff_of_nodup hkeys (List.nodup_range n)]
  intro a
  rw [keys, List.mem_map, List.mem_range]
  constructor
  · rintro ⟨kv, hkv, rfl⟩
    have := List.fst_lt_of_mem_enum ((hmem kv).mp hkv)
    omega
  · intro ha
    have hsp : a < perm.length := by omega
    obtain ⟨f, hf⟩ : ∃ f, perm[a]? = some f :=
      ⟨_, List.getElem?_eq_getElem hsp⟩
    exact ⟨(a, f), (hmem (a, f)).mpr (List.mk_mem_enum_iff_getElem?.mpr hf),
      rfl⟩

/-- C1: for every N ≥ 1 factories, at the start and at the end of every loop
iteration — that is, in every state reachable by running the supervisor loop
from initialization — the active task set contains exactly N tasks and the
slot-to-factory mapping's key set is exactly 0..N-1: a bijection with no
duplicate or missing indices. -/
theorem watch_active_set_and_mapping_bijection (n : Nat) (hn : 1 ≤ n)
    (sched : List Nat) (st : WatchState) (log : List (Task × Nat))
    (h : watchLoop stdCall (watchInit n) sched = LoopOutcome.running st log) :
    st.indexed_tasks.length = n ∧
      (keys st.factory_index).Perm (List.range n) := by
  obtain ⟨hI, -, -⟩ := watchLoop_running_spec sched _ _ _ (inv_init n) h
  exact ⟨inv_length hI, inv_keys_perm hI⟩

theorem watch_active_set_and_mapping_bijection_witness :
    (WatchState.mk [Indexed.mk 0 (Task.mk 1), Indexed.mk 1 (Task.mk 0)]
        [(0, 1), (1, 0)]).indexed_tasks.length = 2 ∧
      (keys (WatchState.mk [Indexed.mk 0 (Task.mk 1), Indexed.mk 1 (Task.mk 0)]
        [(0, 1), (1, 0)]).factory_index).Perm (List.range 2) :=
  watch_active_set_and_mapping_bijection 2 (by decide) [0, 1] _
    [(Task.mk 0, 0), (Task.mk 0, 0)] (by decide)

/-- C2: in the remapping step of any iteration started from a reachable
state, each surviving task's old slot index is translated by the `from_to`
table to a compacted new index in 0..N-2, and relative order is preserved:
if survivor a's old index is below survivor b's old index, a's new index is
below b's new index. -/
theorem from_to_compacts_preserving_order (n : Nat) (sched : List Nat)
    (st : WatchState) (log : List (Task × Nat)) (s a b : Nat)
    (h : watchLoop stdCall (watchInit n) sched = LoopOutcome.running st log)
    (hs : s < n) (ha : a < n) (hb : b < n) (has : a ≠ s) (hbs : b ≠ s) :
    ∃ a2 b2,
      List.lookup a (from_to (st.indexed_tasks.eraseIdx s) s) = some a2 ∧
      List.lookup b (from_to (st.indexed_tasks.eraseIdx s) s) = some b2 ∧
      a2 ≤ n - 2 ∧ b2 ≤ n - 2 ∧ (a < b → a2 < b2) := by
  obtain ⟨hI, -, -⟩ := watchLoop_running_spec sched _ _ _ (inv_init n) h
  obtain ⟨perm, hperm, htasks, -, -⟩ := hI
  have hlenp := perm_length_eq hperm
  have hsp : s < perm.length := by omega
  refine ⟨remapFun n s a, remapFun n s b, ?_, ?_, ?_, ?_, ?_⟩
  · rw [htasks]
    have := from_to_lookup perm s a hsp (by omega)
    rwa [hlenp] at this
  · rw [htasks]
    have := from_to_lookup perm s b hsp (by omega)
    rwa [hlenp] at this
  · have := remapFun_lt_of_ne ha hs has
    omega
  · have := remapFun_lt_of_ne hb hs hbs
    omega
  · intro hab
    exact remapFun_mono hab has hbs hs hb

theorem from_to_compacts_preserving_order_witness :
    ∃ a2 b2,
      List.lookup 0 (from_to ((WatchState.mk
        [Indexed.mk 0 (Task.mk 0), Indexed.mk 1 (Task.mk 2),
          Indexed.mk 2 (Task.mk 1)]
        [(0, 0), (2, 1), (1, 2)]).indexed_tasks.eraseIdx 1) 1) = some a2 ∧
      List.lookup 2 (from_to ((WatchState.mk
        [Indexed.mk 0 (Task.mk 0), Indexed.mk 1 (Task.mk 2),
          Indexed.mk 2 (Task.mk 1)]
        [(0, 0), (2, 1), (1, 2)]).indexed_tasks.eraseIdx 1) 1) = some b2 ∧
      a2 ≤ 3 - 2 ∧ b2 ≤ 3 - 2 ∧ (0 < 2 → a2 < b2) :=
  from_to_compacts_preserving_order 3 [1] _ [(Task.mk 1, 1)] 1 0 2
    (by decide) (by decide) (by decide) (by decide) (by decide) (by decide)

/-- C3: at-most-one-in-flight.  In every reachable state, at most one task in
the active task set was produced by any given factory; moreover, when an
iteration completes slot s and respawns, the invoked factory has no other
task among the survivors — it is re-invoked only after its previous task
completed. -/
theorem at_most_one_in_flight (n : Nat) (sched : List Nat)
    (st : WatchState) (log : List (Task × Nat)) (f : Nat)
    (h : watchLoop stdCall (watchInit n) sched = LoopOutcome.running st log) :
    (st.indexed_tasks.map (fun it => it.inner.factoryId)).count f ≤ 1 ∧
    (∀ (s : Nat) (st2 : WatchState) (out : Task) (fid : Nat),
      watchStep stdCall st s = Except.ok (st2, out, fid) →
      fid ∉ (st.indexed_tasks.eraseIdx s).map (fun it => it.inner.factoryId)) := by
  obtain ⟨hI, -, -⟩ := watchLoop_running_spec sched _ _ _ (inv_init n) h
  have hI2 := hI
  constructor
  · obtain ⟨perm, hperm, hmapeq⟩ := inv_factoryIds hI
    rw [hmapeq]
    exact List.nodup_iff_count_le_one.mp
      (hperm.nodup_iff.mpr (List.nodup_range n)) f
  · intro s st2 out fid hstep
    obtain ⟨-, -, hs, hlk⟩ := watchStep_stdCall_inv hI2 hstep
    obtain ⟨perm, hperm, htasks, hkeys, hmem⟩ := hI2
    have hlenp := perm_length_eq hperm
    have hsp : s < perm.length := by omega
    have hfid : perm[s]? = some fid :=
      List.mk_mem_enum_iff_getElem?.mp ((hmem (s, fid)).mp
        (mem_of_lookup_eq_some hlk))
    have hval : perm[s] = fid := by
      have := List.getElem?_eq_getElem hsp
      rw [hfid] at this
      exact (Option.some.inj this).symm
    rw [htasks, map_eraseIdx, canonical_map_factoryId, ← hval]
    exact getElem_not_mem_eraseIdx_of_nodup
      (hperm.nodup_iff.mpr (List.nodup_range n)) hsp

theorem at_most_one_in_flight_witness :
    ((WatchState.mk
      [Indexed.mk 0 (Task.mk 1), Indexed.mk 1 (Task.mk 2),
        Indexed.mk 2 (Task.mk 0)]
      [(1, 2), (0, 1), (2, 0)]).indexed_tasks.map
        (fun it => it.inner.factoryId)).count 1 ≤ 1 ∧
    (∀ (s : Nat) (st2 : WatchState) (out : Task) (fid : Nat),
      watchStep stdCall (WatchState.mk
        [Indexed.mk 0 (Task.mk 1), Indexed.mk 1 (Task.mk 2),
          Indexed.mk 2 (Task.mk 0)]
        [(1, 2), (0, 1), (2, 0)]) s = Except.ok (st2, out, fid) →
      fid ∉ ((WatchState.mk
        [Indexed.mk 0 (Task.mk 1), Indexed.mk 1 (Task.mk 2),
          Indexed.mk 2 (Task.mk 0)]
        [(1, 2), (0, 1), (2, 0)]).indexed_tasks.eraseIdx s).map
          (fun it => it.inner.factoryId)) :=
  at_most_one_in_flight 3 [2, 0] _ [(Task.mk 2, 2), (Task.mk 0, 0)] 1
    (by decide)

/-- C4: every processed completion triggers, before the next completion is
handled, exactly one factory invocation — recorded as one log entry per loop
iteration — and the invoked factory is exactly the one that produced the
completed task; together with the N invocations made at initialization, the
total number of invocations after k completions is N + k. -/
theorem completion_respawn_pairing (n : Nat) (sched : List Nat)
    (st : WatchState) (log : List (Task × Nat))
    (h : watchLoop stdCall (watchInit n) sched = LoopOutcome.running st log) :
    log.length = sched.length ∧
    (∀ e ∈ log, e.2 = e.1.factoryId) ∧
    (watchInit n).indexed_tasks.length = n := by
  obtain ⟨-, hlen, hlog⟩ := watchLoop_running_spec sched _ _ _ (inv_init n) h
  exact ⟨hlen, hlog, inv_length (inv_init n)⟩

theorem completion_respawn_pairing_witness :
    ([(Task.mk 1, 1)] : List (Task × Nat)).length = ([1] : List Nat).length ∧
    (∀ e ∈ ([(Task.mk 1, 1)] : List (Task × Nat)), e.2 = e.1.factoryId) ∧
    (watchInit 2).indexed_tasks.length = 2 :=
  completion_respawn_pairing 2 [1]
    (WatchState.mk [Indexed.mk 0 (Task.mk 0), Indexed.mk 1 (Task.mk 1)]
      [(0, 0), (1, 1)])
    [(Task.mk 1, 1)] (by decide)

/-- C5: calling watch with an empty factory collection creates no task at all
and fails on the first loop iteration with the empty-collection panic of the
completion primitive, whatever the scheduler does afterwards; the failure
terminates the loop. -/
theorem empty_factories_fail_immediately (s : Nat) (sched : List Nat) :
    (watchInit 0).indexed_tasks = [] ∧
    watchStep stdCall (watchInit 0) s =
      Except.error "select_all called with an empty collection" ∧
    watchLoop stdCall (watchInit 0) (s :: sched) =
      LoopOutcome.failed "select_all called with an empty collection" := by
  refine ⟨rfl, rfl, ?_⟩
  rw [watchLoop]
  rfl

/-- C6: from any reachable state and any valid completed slot s, the
slot-to-factory lookup performed for the respawn and every `from_to` lookup
performed while rebuilding the mapping succeed, so the two fatal
expect("invalid index state") branches are unreachable and the whole
iteration returns a new state. -/
theorem expect_lookups_always_succeed (n : Nat) (sched : List Nat)
    (st : WatchState) (log : List (Task × Nat)) (s : Nat)
    (h : watchLoop stdCall (watchInit n) sched = LoopOutcome.running st log)
    (hs : s < n) :
    (∃ fid, List.lookup s st.factory_index = some fid) ∧
    (∃ rm, remapEntries (from_to (st.indexed_tasks.eraseIdx s) s)
        st.factory_index = Except.ok rm) ∧
    (∃ r, watchStep stdCall st s = Except.ok r) := by
  obtain ⟨hI, -, -⟩ := watchLoop_running_spec sched _ _ _ (inv_init n) h
  obtain ⟨perm, hperm, htasks, hkeys, hmem⟩ := hI
  have hlenp := perm_length_eq hperm
  have hsp : s < perm.length := by omega
  obtain ⟨fid, hfid⟩ : ∃ f, perm[s]? = some f :=
    ⟨_, List.getElem?_eq_getElem hsp⟩
  refine ⟨⟨fid, lookup_eq_some_of_mem_nodup hkeys
      ((hmem (s, fid)).mpr (List.mk_mem_enum_iff_getElem?.mpr hfid))⟩, ?_,
    ⟨_, watchStep_eq n st s perm fid hperm htasks hkeys hmem hfid⟩⟩
  rw [htasks]
  refine ⟨_, remapEntries_eq_map _ (fun k => remapFun n s k) _ ?_⟩
  intro kv hkv
  have hk : kv.1 < perm.length := List.fst_lt_of_mem_enum ((hmem kv).mp hkv)
  rw [from_to_lookup perm s kv.1 hsp hk, hlenp]

theorem expect_lookups_always_succeed_witness :
    (∃ fid, List.lookup 0 (WatchState.mk [Indexed.mk 0 (Task.mk 0)]
      [(0, 0)]).factory_index = some fid) ∧
    (∃ rm, remapEntries (from_to ((WatchState.mk [Indexed.mk 0 (Task.mk 0)]
        [(0, 0)]).indexed_tasks.eraseIdx 0) 0)
        (WatchState.mk [Indexed.mk 0 (Task.mk 0)] [(0, 0)]).factory_index =
      Except.ok rm) ∧
    (∃ r, watchStep stdCall (WatchState.mk [Indexed.mk 0 (Task.mk 0)]
      [(0, 0)]) 0 = Except.ok r) :=
  expect_lookups_always_succeed 1 [] _ [] 0 (by decide) (by decide)

/-- C7: a failure raised while invoking a factory during a respawn makes the
whole loop iteration fail with that failure, and no further scheduler
choices are processed: supervision of all slots terminates. -/
theorem factory_failure_stops_supervision (call : Nat → Except String Task)
    (st : WatchState) (s : Nat) (rest : List Nat) (e : String)
    (out : Task) (pos : Nat) (others : List Indexed) (fid : Nat)
    (hsel : select_all st.indexed_tasks s = Except.ok (out, pos, others))
    (hlk : List.lookup pos st.factory_index = some fid)
    (hcall : call fid = Except.error e) :
    watchLoop call st (s :: rest) = LoopOutcome.failed e := by
  rw [watchLoop, watchStep, hsel]
  simp only [hlk, hcall]

theorem factory_failure_stops_supervision_witness :
    watchLoop (fun k => if k = 0 then Except.error "boom"
        else Except.ok (Task.mk k))
      (watchInit 1) [0, 0, 0] = LoopOutcome.failed "boom" :=
  factory_failure_stops_supervision _ (watchInit 1) 0 [0, 0] "boom"
    (Task.mk 0) 0 [] 0 rfl rfl rfl

/-- C8: for any factory behaviour, any starting state, and any finite
schedule of completions, running the supervisor loop never produces the
returned outcome: the operation returned by watch never completes. -/
theorem watch_never_completes (call : Nat → Except String Task)
    (st : WatchState) (sched : List Nat) :
    watchLoop call st sched ≠ LoopOutcome.returned := by
  induction sched generalizing st with
  | nil =>
    rw [watchLoop]
    intro hco
    exact LoopOutcome.noConfusion hco
  | cons s rest ih =>
    rw [watchLoop]
    cases hstep : watchStep call st s with
    | error e =>
      intro hco
      exact LoopOutcome.noConfusion hco
    | ok r =>
      obtain ⟨st1, out, fid⟩ := r
      show (match watchLoop call st1 rest with
        | LoopOutcome.running stf lg =>
            LoopOutcome.running stf ((out, fid) :: lg)
        | r => r) ≠ LoopOutcome.returned
      cases hrec : watchLoop call st1 rest with
      | running st2 log2 =>
        intro hco
        exact LoopOutcome.noConfusion hco
      | failed e =>
        intro hco
        exact LoopOutcome.noConfusion hco
      | returned => exact absurd hrec (ih st1)

/-- C9: in every iteration taken from a reachable state, the replacement
task — produced by the factory bound to the completed slot s — is appended
at the tail of the new active task set with tail index N-1, and the rebuilt
mapping assigns that factory the tail index N-1. -/
theorem respawn_appended_at_tail (n : Nat) (sched : List Nat)
    (st : WatchState) (log : List (Task × Nat)) (s : Nat) (st2 : WatchState)
    (out : Task) (fid : Nat)
    (h : watchLoop stdCall (watchInit n) sched = LoopOutcome.running st log)
    (hstep : watchStep stdCall st s = Except.ok (st2, out, fid)) :
    List.lookup s st.factory_index = some fid ∧
    st2.indexed_tasks.getLast? = some (Indexed.mk (n - 1) (Task.mk fid)) ∧
    List.lookup (n - 1) st2.factory_index = some fid := by
  obtain ⟨hI, -, -⟩ := watchLoop_running_spec sched _ _ _ (inv_init n) h
  have hI2 := hI
  obtain ⟨hInext, hout, hs, hlk⟩ := watchStep_stdCall_inv hI hstep
  obtain ⟨perm, hperm, htasks, hkeys, hmem⟩ := hI2
  have hlenp := perm_length_eq hperm
  have hsp : s < perm.length := by omega
  have hfid : perm[s]? = some fid :=
    List.mk_mem_enum_iff_getElem?.mp
      ((hmem (s, fid)).mp (mem_of_lookup_eq_some hlk))
  have heq := watchStep_eq n st s perm fid hperm htasks hkeys hmem hfid
  rw [heq] at hstep
  have h3 := Except.ok.inj hstep
  have hst2 : st2 =
      ⟨canonical (perm.eraseIdx s ++ [fid]),
        hashMapOfPairs
          (st.factory_index.map (fun kv => (remapFun n s kv.1, kv.2)))⟩ :=
    (congrArg Prod.fst h3).symm
  have hlen2 : (perm.eraseIdx s ++ [fid]).length = n := by
    rw [newPerm_length perm s fid hsp, hlenp]
  refine ⟨hlk, ?_, ?_⟩
  · rw [hst2]
    show (canonical (perm.eraseIdx s ++ [fid])).getLast? = _
    rw [canonical, List.getLast?_map, List.getLast?_enum, List.getLast?_concat,
      hlen2]
    rfl
  · obtain ⟨perm2, hperm2, htasks2, hkeys2, hmem2⟩ := hInext
    have hce : canonical perm2 = canonical (perm.eraseIdx s ++ [fid]) := by
      rw [← htasks2, hst2]
    have hp2 : perm2 = perm.eraseIdx s ++ [fid] := canonical_inj hce
    have hnp : perm2[n - 1]? = some fid := by
      rw [hp2]
      have hlen1 : (perm.eraseIdx s).length = n - 1 := by
        rw [List.length_eraseIdx_of_lt hsp, hlenp]
      rw [← hlen1]
      exact List.getElem?_concat_length _ _
    exact lookup_eq_some_of_mem_nodup hkeys2
      ((hmem2 (n - 1, fid)).mpr (List.mk_mem_enum_iff_getElem?.mpr hnp))

theorem respawn_appended_at_tail_witness :
    List.lookup 0 (WatchState.mk
      [Indexed.mk 0 (Task.mk 0), Indexed.mk 1 (Task.mk 1)]
      [(1, 1), (0, 0)]).factory_index = some 0 ∧
    (WatchState.mk [Indexed.mk 0 (Task.mk 1), Indexed.mk 1 (Task.mk 0)]
      [(1, 0), (0, 1)]).indexed_tasks.getLast? =
        some (Indexed.mk (2 - 1) (Task.mk 0)) ∧
    List.lookup (2 - 1) (WatchState.mk
      [Indexed.mk 0 (Task.mk 1), Indexed.mk 1 (Task.mk 0)]
      [(1, 0), (0, 1)]).factory_index = some 0 :=
  respawn_appended_at_tail 2 [] _ [] 0 _ (Task.mk 0) 0 (by decide) rfl

/-- C10: in every reachable state the task vector's carried index tags equal
the positions 0..N-1, so the position reported by the completion primitive
for a completed slot s equals that task's carried tag, and the surviving
tasks carry exactly the tags 0..N-1 with s removed. -/
theorem carried_tags_match_positions (n : Nat) (sched : List Nat)
    (st : WatchState) (log : List (Task × Nat)) (s : Nat)
    (h : watchLoop stdCall (watchInit n) sched = LoopOutcome.running st log)
    (hs : s < n) :
    st.indexed_tasks.map (fun it => it.index) = List.range n ∧
    (∃ out, select_all st.indexed_tasks s =
        Except.ok (out, s, st.indexed_tasks.eraseIdx s)) ∧
    (st.indexed_tasks.eraseIdx s).map (fun it => it.index) =
      (List.range n).eraseIdx s := by
  obtain ⟨hI, -, -⟩ := watchLoop_running_spec sched _ _ _ (inv_init n) h
  have htags := inv_tags hI
  obtain ⟨perm, hperm, htasks, -, -⟩ := hI
  have hlenp := perm_length_eq hperm
  have hsp : s < perm.length := by omega
  obtain ⟨fid, hfid⟩ : ∃ f, perm[s]? = some f :=
    ⟨_, List.getElem?_eq_getElem hsp⟩
  refine ⟨htags, ⟨Task.mk fid, ?_⟩, ?_⟩
  · rw [htasks]
    exact select_all_canonical hfid
  · rw [htasks, tags_of_canonical_eraseIdx, hlenp]

theorem carried_tags_match_positions_witness :
    (WatchState.mk [Indexed.mk 0 (Task.mk 0), Indexed.mk 1 (Task.mk 1)]
      [(0, 0), (1, 1)]).indexed_tasks.map (fun it => it.index) =
        List.range 2 ∧
    (∃ out, select_all (WatchState.mk
        [Indexed.mk 0 (Task.mk 0), Indexed.mk 1 (Task.mk 1)]
        [(0, 0), (1, 1)]).indexed_tasks 0 =
      Except.ok (out, 0, (WatchState.mk
        [Indexed.mk 0 (Task.mk 0), Indexed.mk 1 (Task.mk 1)]
        [(0, 0), (1, 1)]).indexed_tasks.eraseIdx 0)) ∧
    ((WatchState.mk [Indexed.mk 0 (Task.mk 0), Indexed.mk 1 (Task.mk 1)]
      [(0, 0), (1, 1)]).indexed_tasks.eraseIdx 0).map (fun it => it.index) =
        (List.range 2).eraseIdx 0 :=
  carried_tags_match_positions 2 [1] _ [(Task.mk 1, 1)] 0 (by decide)
    (by decide)

end Watch
